import Mathlib

/-!
Verification of the enhanced-memory-2.0 repository search and concept-map
components, shallowly embedded from
src/enhanced-memory-platform/src/components/results/SearchTab.tsx and
src/enhanced-memory-platform/src/components/results/ConceptMapTab.tsx.
JavaScript strings are modelled as Lean strings operated on as character
lists; floating point scores are modelled as rationals (every score the
code computes is a ratio of small integers).
-/

namespace EnhancedMemory

/-- Model of JavaScript toLowerCase, applied per character. -/
def lowerL (s : List Char) : List Char := s.map Char.toLower

/-- listStartsWith needle hay: the needle occurs at position 0 of hay. -/
def listStartsWith : List Char → List Char → Bool
  | [], _ => true
  | _ :: _, [] => false
  | a :: as, b :: bs => a == b && listStartsWith as bs

/-- Model of JavaScript String.indexOf: the position of the first
occurrence of needle in hay, or none (JS returns -1). -/
def jsIndexOf (needle : List Char) : List Char → Option Nat
  | [] => if listStartsWith needle [] then some 0 else none
  | c :: t =>
    if listStartsWith needle (c :: t) then some 0
    else (jsIndexOf needle t).map (· + 1)

/-- Model of JavaScript String.includes. -/
def jsIncludes (hay needle : List Char) : Bool := (jsIndexOf needle hay).isSome

/-- The needle occurs at position i of the haystack. -/
def OccAt (needle hay : List Char) (i : Nat) : Prop :=
  listStartsWith needle (hay.drop i) = true

instance (needle hay : List Char) (i : Nat) : Decidable (OccAt needle hay i) := by
  unfold OccAt; infer_instance

/-- Model of JavaScript String.split with a single-space separator:
keeps empty pieces and yields one (possibly empty) piece even for the
empty string. -/
def splitSp : List Char → List (List Char)
  | [] => [[]]
  | c :: cs =>
    match splitSp cs with
    | [] => [[]]
    | p :: ps => if c = ' ' then [] :: p :: ps else (c :: p) :: ps

/-- Model of JavaScript String.substring(a, b) for a ≤ b (the only way
the source calls it); both bounds are clamped to the string length. -/
def jsSubstring (s : List Char) (a b : Nat) : List Char := (s.drop a).take (b - a)

/-- Model of JavaScript String.trim. -/
def jsTrim (s : List Char) : List Char :=
  ((s.dropWhile Char.isWhitespace).reverse.dropWhile Char.isWhitespace).reverse

/-- Lexicographic strict order on character lists; models the result of
localeCompare being negative for the code-unit-comparable timecode
strings the source compares. -/
def lexLt : List Char → List Char → Bool
  | _, [] => false
  | [], _ :: _ => true
  | a :: as, b :: bs => if a = b then lexLt as bs else decide (a < b)

/-- Lexicographic non-strict order on character lists; models
localeCompare being non-positive. -/
def lexLe : List Char → List Char → Bool
  | [], _ => true
  | _ :: _, [] => false
  | a :: as, b :: bs => if a = b then lexLe as bs else decide (a < b)

/-- Strict order on strings (model of a negative localeCompare). -/
def strLt (a b : String) : Bool := lexLt a.toList b.toList

/-- Non-strict order on strings (model of a non-positive localeCompare). -/
def strLe (a b : String) : Bool := lexLe a.toList b.toList

/-- TextSegment from src/unnamed/part_000 (types/lecture.ts); the source
field named end is called stop here because end is a Lean keyword. -/
structure TextSegment where
  start : String
  stop : String
  text : String
deriving DecidableEq, Repr

/-- Transcription from types/lecture.ts. -/
structure Transcription where
  full_text : String
  segments : List TextSegment
deriving DecidableEq, Repr

/-- SearchResult from types/lecture.ts; the float score is a rational. -/
structure SearchResult where
  segment : TextSegment
  score : ℚ
  context : String
deriving DecidableEq, Repr

/-- The sortBy state of SearchTab. -/
inductive SortKey where
  | relevance
  | time
deriving DecidableEq, Repr

/-- getContext from SearchTab.tsx lines 100-112. -/
def getContext (text query : String) : String :=
  match jsIndexOf (lowerL query.toList) (lowerL text.toList) with
  | none => String.mk (jsSubstring text.toList 0 100) ++ "..."
  | some queryIndex =>
    let start := queryIndex - 50
    let stop := min text.toList.length (queryIndex + query.toList.length + 50)
    let context := jsSubstring text.toList start stop
    (if 0 < start then "..." else "") ++ String.mk context ++
      (if stop < text.toList.length then "..." else "")

/-- The relevance-score accumulation loop of performSearch (SearchTab.tsx
lines 56-67): each term found in the segment adds 1, and additionally
adds 2 whenever the full lowercased query is a substring of the segment. -/
def relevanceScoreOf (terms : List (List Char)) (queryLower segText : List Char) : Nat :=
  terms.foldl
    (fun acc term =>
      if jsIncludes segText term then
        acc + 1 + (if jsIncludes segText queryLower then 2 else 0)
      else acc)
    0

/-- The unsorted result list built by the forEach of performSearch
(SearchTab.tsx lines 54-79): one SearchResult per segment with positive
relevance, in segment order. The float division
relevanceScore / searchTerms.length is modelled exactly by the rational
mkRat (both operands are small integers, so the float is exact). -/
def searchMatches (t : Transcription) (query : String) : List SearchResult :=
  let qLower := lowerL query.toList
  let terms := splitSp qLower
  t.segments.filterMap fun seg =>
    let segText := lowerL seg.text.toList
    let rel := relevanceScoreOf terms qLower segText
    if 0 < rel then
      some ⟨seg, mkRat rel terms.length, getContext seg.text query⟩
    else none

/-- Insert x in front of the first element y with le x y; auxiliary to
stableSort. -/
def insertLe (le : α → α → Bool) (x : α) : List α → List α
  | [] => [x]
  | y :: ys => if le x y then x :: y :: ys else y :: insertLe le x ys

/-- Stable insertion sort; models JavaScript Array.prototype.sort (stable
since ES2019) with a comparator whose induced preorder is le. -/
def stableSort (le : α → α → Bool) : List α → List α
  | [] => []
  | x :: xs => insertLe le x (stableSort le xs)

/-- performSearch from SearchTab.tsx lines 41-98 (the pure result
computation: blank-query guard, per-segment scoring, comparator chosen by
the sortBy state, and the cap at 10 results). -/
def performSearch (t : Transcription) (k : SortKey) (query : String) : List SearchResult :=
  if (jsTrim query.toList).isEmpty then []
  else
    let sorted :=
      match k with
      | .relevance =>
        stableSort (fun a b : SearchResult => decide (b.score ≤ a.score)) (searchMatches t query)
      | .time => stableSort (fun a b => strLe a.segment.start b.segment.start) (searchMatches t query)
    sorted.take 10

/-- The query-history update of performSearch (SearchTab.tsx lines
94-96): a query not already present is prepended to the first four old
entries. -/
def updateHistory (history : List String) (query : String) : List String :=
  if query ∈ history then history else query :: history.take 4

/-- performSearch together with its searchHistory side effect; the early
blank-query return skips the history update. -/
def performSearchWithHistory (t : Transcription) (k : SortKey) (query : String)
    (history : List String) : List SearchResult × List String :=
  (performSearch t k query,
   if (jsTrim query.toList).isEmpty then history else updateHistory history query)

/-- ConceptNode from types/lecture.ts; the source keeps type as an open
string, which the renderer compares against the five kind names. -/
structure ConceptNode where
  id : String
  label : String
  type : String
  size : ℚ
deriving DecidableEq, Repr

/-- ConceptEdge from types/lecture.ts; the source fields named from and
to are called fromId and toId here because both are Lean keywords. -/
structure ConceptEdge where
  fromId : String
  toId : String
  label : String
  strength : ℚ
deriving DecidableEq, Repr

/-- ConceptMap from types/lecture.ts. -/
structure ConceptMap where
  nodes : List ConceptNode
  edges : List ConceptEdge
deriving DecidableEq, Repr

/-- A 2D point of the circular layout. -/
abbrev Pos := ℚ × ℚ

/-- JavaScript Map.set on an association list: replaces the value of an
existing key, otherwise appends the binding. -/
def mapSet (m : List (String × Pos)) (k : String) (v : Pos) : List (String × Pos) :=
  if m.any (fun p => p.1 == k) then m.map (fun p => if p.1 == k then (k, v) else p)
  else m ++ [(k, v)]

/-- JavaScript Map.get on an association list. -/
def mapGet (m : List (String × Pos)) (k : String) : Option Pos :=
  (m.find? (fun p => p.1 == k)).map (·.2)

/-- calculateLayout from ConceptMapTab.tsx lines 30-62: root node at the
center, main nodes on an inner circle, all remaining nodes on an outer
circle. The trigonometric factors Math.cos((index / count) * 2 * PI) and
Math.sin(...) are abstracted as the parameters cosF and sinF (index,
count ↦ value); every property proved below holds for all of them. -/
def calculateLayout (cosF sinF : Nat → Nat → ℚ) (nodes : List ConceptNode) :
    List (String × Pos) :=
  let centerX : ℚ := 400
  let centerY : ℚ := 300
  let radius : ℚ := 200
  let m0 : List (String × Pos) :=
    match nodes.find? (fun n => n.type == "root") with
    | some rootNode => mapSet [] rootNode.id (centerX, centerY)
    | none => []
  let mainNodes := nodes.filter (fun n => n.type == "main")
  let m1 := mainNodes.enum.foldl
    (fun m p =>
      mapSet m p.2.id (centerX + cosF p.1 mainNodes.length * radius,
                       centerY + sinF p.1 mainNodes.length * radius))
    m0
  let otherNodes := nodes.filter (fun n => !(n.type == "root" || n.type == "main"))
  otherNodes.enum.foldl
    (fun m p =>
      mapSet m p.2.id (centerX + cosF p.1 otherNodes.length * (radius + 100),
                       centerY + sinF p.1 otherNodes.length * (radius + 100)))
    m1

/-- The edges actually rendered by ConceptMapTab.tsx lines 251-260: an
edge is drawn only when both endpoint ids resolve to nodes (the two find
calls) and both have layout positions (the two Map.get calls); otherwise
the edge renders as nothing (return null). -/
def drawnEdges (cm : ConceptMap) (positions : List (String × Pos)) : List ConceptEdge :=
  cm.edges.filter fun e =>
    (cm.nodes.find? (fun n => n.id == e.fromId)).isSome &&
    (cm.nodes.find? (fun n => n.id == e.toId)).isSome &&
    (mapGet positions e.fromId).isSome &&
    (mapGet positions e.toId).isSome

/-- Error taxonomy of spec section 7 (only the member claim C9 needs). -/
inductive PipelineError where
  | emptyTranscriptError
deriving DecidableEq, Repr

/-- Modelled from the spec: normalization of section 4.1 (lowercase,
split on whitespace/punctuation into terms); the repository ships no
Indexer implementation, src/ holds only the UI. -/
def tokensOf (s : String) : List String :=
  (((s.toList.map Char.toLower).splitOnP (fun c => !c.isAlphanum)).filter
    (fun w => !w.isEmpty)).map String.mk

/-- Modelled from the spec: the IndexEntry table of section 3 — each
normalized term maps to its (segment index, term frequency) pairs. The
repository ships no Indexer implementation. -/
structure Index where
  entries : List (String × List (Nat × Nat))
deriving DecidableEq, Repr

/-- Modelled from the spec: Indexer.build of section 4.1 — fails with
EmptyTranscriptError when the transcript has zero segments, otherwise
builds the term table. The repository ships no Indexer implementation. -/
def buildIndex (t : Transcription) : Except PipelineError Index :=
  if t.segments.isEmpty then .error .emptyTranscriptError
  else
    let termLists := t.segments.map (fun seg => tokensOf seg.text)
    let allTerms := termLists.flatten.dedup
    .ok ⟨allTerms.map fun term =>
      (term,
       termLists.enum.filterMap fun p =>
         let c := p.2.count term
         if 0 < c then some (p.1, c) else none)⟩

/-- Modelled from the spec: the pipeline gate of section 7 — an Indexer
failure is fatal and no downstream component (search, summarization,
question generation, concept-map construction) runs; downstream is the
joined work of the four downstream components. The repository ships no
pipeline implementation. -/
def runPipeline {α : Type} (downstream : Index → Transcription → α)
    (t : Transcription) : Except PipelineError α :=
  match buildIndex t with
  | .error e => .error e
  | .ok idx => .ok (downstream idx t)

/-- The relevance formula as the specification section 4.1 words it: each
query term present in the segment contributes 1, plus a single bonus of 2
when the lowercased full query is a substring of the lowercased segment
text. Declared only to compare the specified formula with the code
(relevanceScoreOf applies the bonus once per present term instead). -/
def specRelevance (terms : List (List Char)) (queryLower segText : List Char) : Nat :=
  terms.countP (fun term => jsIncludes segText term) +
    (if jsIncludes segText queryLower then 2 else 0)

/-- The score as the specification words it: specRelevance divided by the
number of query terms. -/
def specScore (query segText : String) : ℚ :=
  let qL := lowerL query.toList
  let terms := splitSp qL
  mkRat (specRelevance terms qL (lowerL segText.toList)) terms.length

/-- The single-segment transcript of the specification section 8 search
scenario. -/
def mlText : String := "machine learning is a subset of artificial intelligence"

/-- The transcript of the specification section 8 search scenario. -/
def mlTranscript : Transcription := ⟨mlText, [⟨"00:00:00", "00:00:05", mlText⟩]⟩

/-- An eleven-segment transcript on which more than ten segments match
the query containing an x: the first ten segments contain only the first
query term while the last and chronologically latest segment contains
the whole phrase. -/
def elevenTranscript : Transcription :=
  ⟨"x x x x x x x x x x x y",
   [⟨"00:00:00", "00:00:01", "x"⟩, ⟨"00:00:01", "00:00:02", "x"⟩,
    ⟨"00:00:02", "00:00:03", "x"⟩, ⟨"00:00:03", "00:00:04", "x"⟩,
    ⟨"00:00:04", "00:00:05", "x"⟩, ⟨"00:00:05", "00:00:06", "x"⟩,
    ⟨"00:00:06", "00:00:07", "x"⟩, ⟨"00:00:07", "00:00:08", "x"⟩,
    ⟨"00:00:08", "00:00:09", "x"⟩, ⟨"00:00:09", "00:00:10", "x"⟩,
    ⟨"00:00:10", "00:00:11", "x y"⟩]⟩

/-! Helper lemmas about the sorting primitives. -/

theorem insertLe_perm (le : α → α → Bool) (x : α) (l : List α) :
    List.Perm (insertLe le x l) (x :: l) := by
  induction l with
  | nil => rfl
  | cons y ys ih =>
    unfold insertLe
    by_cases h : le x y = true
    · simp [h]
    · simp only [h]
      rw [if_neg (by simp [h])]
      exact ((ih.cons y).trans (List.Perm.swap x y ys)).symm.symm

theorem stableSort_perm (le : α → α → Bool) (l : List α) :
    List.Perm (stableSort le l) l := by
  induction l with
  | nil => rfl
  | cons x xs ih =>
    exact (insertLe_perm le x (stableSort le xs)).trans (ih.cons x)

theorem mem_stableSort (le : α → α → Bool) (l : List α) (a : α) :
    a ∈ stableSort le l ↔ a ∈ l :=
  (stableSort_perm le l).mem_iff

theorem length_stableSort (le : α → α → Bool) (l : List α) :
    (stableSort le l).length = l.length :=
  (stableSort_perm le l).length_eq

theorem mem_insertLe (le : α → α → Bool) (x : α) (l : List α) (a : α) :
    a ∈ insertLe le x l ↔ a = x ∨ a ∈ l := by
  rw [(insertLe_perm le x l).mem_iff, List.mem_cons]

theorem insertLe_sorted (le : α → α → Bool)
    (htot : ∀ a b, le a b = true ∨ le b a = true)
    (htrans : ∀ a b c, le a b = true → le b c = true → le a c = true)
    (x : α) (l : List α) (hl : l.Pairwise (fun a b => le a b = true)) :
    (insertLe le x l).Pairwise (fun a b => le a b = true) := by
  induction l with
  | nil => simp [insertLe]
  | cons y ys ih =>
    unfold insertLe
    by_cases h : le x y = true
    · rw [if_pos h]
      refine List.Pairwise.cons ?_ hl
      intro z hz
      rcases List.mem_cons.mp hz with rfl | hz
      · exact h
      · exact htrans x y z h (List.rel_of_pairwise_cons hl hz)
    · rw [if_neg (by simp [h])]
      refine List.Pairwise.cons ?_ (ih hl.tail)
      intro z hz
      rcases (mem_insertLe le x ys z).mp hz with rfl | hz
      · rcases htot z y with hyz | hzy
        · exact absurd hyz h
        · exact hzy
      · exact List.rel_of_pairwise_cons hl hz

theorem stableSort_sorted (le : α → α → Bool)
    (htot : ∀ a b, le a b = true ∨ le b a = true)
    (htrans : ∀ a b c, le a b = true → le b c = true → le a c = true)
    (l : List α) : (stableSort le l).Pairwise (fun a b => le a b = true) := by
  induction l with
  | nil => simp [stableSort]
  | cons x xs ih => exact insertLe_sorted le htot htrans x (stableSort le xs) ih

/-- Stability of insertion for a descending sort keyed by f: inserting x,
which originally came before every element already present (recorded by
P), yields a list pairwise ordered by strictly-larger key or equal key
with original order preserved. -/
theorem insertLe_pairwise_key {α : Type} (f : α → ℚ) (P : α → α → Prop) (x : α)
    (l : List α)
    (hsorted : l.Pairwise (fun a b => f b ≤ f a))
    (hR : l.Pairwise (fun a b => f b < f a ∨ (f a = f b ∧ P a b)))
    (hx : ∀ y ∈ l, P x y) :
    (insertLe (fun a b => decide (f b ≤ f a)) x l).Pairwise
      (fun a b => f b < f a ∨ (f a = f b ∧ P a b)) := by
  induction l with
  | nil => simp [insertLe]
  | cons y ys ih =>
    unfold insertLe
    by_cases h : f y ≤ f x
    · rw [if_pos (by simpa using h)]
      refine List.Pairwise.cons ?_ hR
      intro z hz
      have hzx : f z ≤ f x := by
        rcases List.mem_cons.mp hz with rfl | hz
        · exact h
        · exact le_trans (List.rel_of_pairwise_cons hsorted hz) h
      rcases lt_or_eq_of_le hzx with hlt | heq
      · exact Or.inl hlt
      · exact Or.inr ⟨heq.symm, hx z hz⟩
    · rw [if_neg (by simpa using h)]
      refine List.Pairwise.cons ?_
        (ih hsorted.tail hR.tail (fun z hz => hx z (List.mem_cons_of_mem y hz)))
      intro z hz
      rcases (mem_insertLe _ x ys z).mp hz with rfl | hz
      · exact Or.inl (lt_of_not_le h)
      · exact List.rel_of_pairwise_cons hR hz

theorem stableSort_pairwise_key {α : Type} (f : α → ℚ) (P : α → α → Prop)
    (l : List α) (hP : l.Pairwise P) :
    (stableSort (fun a b => decide (f b ≤ f a)) l).Pairwise
      (fun a b => f b < f a ∨ (f a = f b ∧ P a b)) := by
  induction l with
  | nil => simp [stableSort]
  | cons x xs ih =>
    unfold stableSort
    refine insertLe_pairwise_key f P x (stableSort _ xs) ?_ (ih hP.tail) ?_
    · have := stableSort_sorted (fun a b : α => decide (f b ≤ f a))
        (fun a b => by rcases le_total (f b) (f a) with h | h <;> simp [h])
        (fun a b c hab hbc => by
          simp only [decide_eq_true_eq] at *
          exact le_trans hbc hab) xs
      exact this.imp (by simp)
    · intro y hy
      exact List.rel_of_pairwise_cons hP ((mem_stableSort _ xs y).mp hy)

/-! Characterization of the indexOf model: it returns exactly the least
position at which the needle occurs. -/

theorem jsIndexOf_eq_some_iff (needle hay : List Char) (i : Nat) :
    jsIndexOf needle hay = some i ↔
      (OccAt needle hay i ∧ ∀ j < i, ¬ OccAt needle hay j) := by
  induction hay generalizing i with
  | nil =>
    unfold jsIndexOf OccAt
    by_cases h : listStartsWith needle [] = true
    · simp only [List.drop_nil, if_pos h]
      constructor
      · rintro h0
        cases h0
        exact ⟨h, by omega⟩
      · rintro ⟨-, hmin⟩
        rcases Nat.eq_zero_or_pos i with rfl | hpos
        · rfl
        · exact absurd h (hmin 0 hpos)
    · simp only [List.drop_nil, if_neg h]
      constructor
      · intro h0; exact absurd h0 (by simp)
      · rintro ⟨hocc, -⟩; exact absurd hocc h
  | cons c t ih =>
    unfold jsIndexOf
    by_cases h : listStartsWith needle (c :: t) = true
    · simp only [if_pos h]
      constructor
      · rintro h0
        cases h0
        exact ⟨h, by omega⟩
      · rintro ⟨-, hmin⟩
        rcases Nat.eq_zero_or_pos i with rfl | hpos
        · rfl
        · exact absurd h (hmin 0 hpos)
    · simp only [if_neg h, Option.map_eq_some']
      constructor
      · rintro ⟨i', hi', rfl⟩
        obtain ⟨hocc, hmin⟩ := (ih i').mp hi'
        refine ⟨by simpa [OccAt] using hocc, ?_⟩
        intro j hj
        cases j with
        | zero => simpa [OccAt] using h
        | succ j' =>
          have := hmin j' (by omega)
          simpa [OccAt] using this
      · rintro ⟨hocc, hmin⟩
        cases i with
        | zero => exact absurd (by simpa [OccAt] using hocc) h
        | succ i' =>
          refine ⟨i', (ih i').mpr ⟨by simpa [OccAt] using hocc, ?_⟩, rfl⟩
          intro j hj
          have := hmin (j + 1) (by omega)
          simpa [OccAt] using this

theorem jsIndexOf_eq_none_iff (needle hay : List Char) :
    jsIndexOf needle hay = none ↔ ∀ j, ¬ OccAt needle hay j := by
  induction hay with
  | nil =>
    unfold jsIndexOf OccAt
    by_cases h : listStartsWith needle [] = true
    · simp only [if_pos h]
      constructor
      · intro h0; exact absurd h0 (by simp)
      · intro hall; exact absurd h (by simpa using hall 0)
    · simp only [if_neg h]
      constructor
      · intro _ j hocc
        exact absurd (by simpa using hocc) h
      · intro _; trivial
  | cons c t ih =>
    unfold jsIndexOf
    by_cases h : listStartsWith needle (c :: t) = true
    · simp only [if_pos h]
      constructor
      · intro h0; exact absurd h0 (by simp)
      · intro hall; exact absurd h (by simpa [OccAt] using hall 0)
    · simp only [if_neg h, Option.map_eq_none']
      rw [ih]
      constructor
      · intro hall j
        cases j with
        | zero => simpa [OccAt] using h
        | succ j' => simpa [OccAt] using hall j'
      · intro hall j
        have := hall (j + 1)
        simpa [OccAt] using this

theorem jsIncludes_iff (hay needle : List Char) :
    jsIncludes hay needle = true ↔ ∃ j, OccAt needle hay j := by
  unfold jsIncludes
  rw [Option.isSome_iff_ne_none]
  constructor
  · intro h
    by_contra hno
    push_neg at hno
    exact h ((jsIndexOf_eq_none_iff needle hay).mpr hno)
  · rintro ⟨j, hj⟩ hnone
    exact (jsIndexOf_eq_none_iff needle hay).mp hnone j hj

/-! Facts about the query splitter and the relevance score. -/

theorem splitSp_ne_nil (l : List Char) : splitSp l ≠ [] := by
  cases l with
  | nil => simp [splitSp]
  | cons c cs =>
    unfold splitSp
    rcases h : splitSp cs with - | ⟨p, ps⟩
    · simp
    · by_cases hc : c = ' ' <;> simp [hc]

theorem splitSp_length_pos (l : List Char) : 0 < (splitSp l).length :=
  List.length_pos.mpr (splitSp_ne_nil l)

theorem relevanceScoreOf_eq (terms : List (List Char)) (qL txt : List Char) :
    relevanceScoreOf terms qL txt =
      (terms.countP (fun term => jsIncludes txt term)) *
        (if jsIncludes txt qL = true then 3 else 1) := by
  unfold relevanceScoreOf
  suffices h : ∀ acc : Nat,
      terms.foldl
        (fun acc term =>
          if jsIncludes txt term then
            acc + 1 + (if jsIncludes txt qL then 2 else 0)
          else acc) acc =
      acc + (terms.countP (fun term => jsIncludes txt term)) *
        (if jsIncludes txt qL = true then 3 else 1) by
    simpa using h 0
  induction terms with
  | nil => simp
  | cons term ts ih =>
    intro acc
    rw [List.foldl_cons, ih, List.countP_cons]
    by_cases hterm : jsIncludes txt term = true <;>
      by_cases hq : jsIncludes txt qL = true <;>
        simp [hterm, hq] <;> ring

theorem relevanceScoreOf_le (terms : List (List Char)) (qL txt : List Char) :
    relevanceScoreOf terms qL txt ≤ 3 * terms.length := by
  rw [relevanceScoreOf_eq]
  have hcount := List.countP_le_length (l := terms)
    (p := fun term => jsIncludes txt term)
  by_cases hq : jsIncludes txt qL = true <;> simp [hq] <;> omega

/-! Membership and order structure of the unsorted match list. -/

theorem mem_searchMatches (t : Transcription) (q : String) (r : SearchResult) :
    r ∈ searchMatches t q ↔
      ∃ seg ∈ t.segments,
        0 < relevanceScoreOf (splitSp (lowerL q.toList)) (lowerL q.toList)
            (lowerL seg.text.toList) ∧
        r = ⟨seg,
             mkRat
               (relevanceScoreOf (splitSp (lowerL q.toList)) (lowerL q.toList)
                 (lowerL seg.text.toList))
               (splitSp (lowerL q.toList)).length,
             getContext seg.text q⟩ := by
  unfold searchMatches
  simp only [List.mem_filterMap]
  constructor
  · rintro ⟨seg, hseg, h⟩
    by_cases hpos :
        0 < relevanceScoreOf (splitSp (lowerL q.toList)) (lowerL q.toList)
          (lowerL seg.text.toList)
    · rw [if_pos hpos] at h
      exact ⟨seg, hseg, hpos, (Option.some_inj.mp h).symm⟩
    · rw [if_neg hpos] at h
      cases h
  · rintro ⟨seg, hseg, hpos, rfl⟩
    exact ⟨seg, hseg, by rw [if_pos hpos]⟩

theorem searchMatches_pairwise (t : Transcription) (q : String)
    (P : TextSegment → TextSegment → Prop) (h : t.segments.Pairwise P) :
    (searchMatches t q).Pairwise (fun a b => P a.segment b.segment) := by
  unfold searchMatches
  rw [List.pairwise_filterMap]
  refine h.imp ?_
  intro s₁ s₂ hP r₁ h₁ r₂ h₂
  simp only [Option.mem_def] at h₁ h₂
  split_ifs at h₁ h₂
  cases h₁; cases h₂; exact hP

/-! The lexicographic comparator is a total preorder. -/

theorem lexLe_total : ∀ a b : List Char, lexLe a b = true ∨ lexLe b a = true := by
  intro a
  induction a with
  | nil => intro b; left; simp [lexLe]
  | cons x xs ih =>
    intro b
    cases b with
    | nil => right; simp [lexLe]
    | cons y ys =>
      by_cases hxy : x = y
      · subst hxy
        rcases ih ys with h | h
        · left; simpa [lexLe] using h
        · right; simpa [lexLe] using h
      · rcases lt_or_gt_of_ne hxy with h | h
        · left; simp [lexLe, hxy, h]
        · right
          have hne : y ≠ x := fun e => hxy e.symm
          simp [lexLe, hne, h]

theorem lexLe_trans :
    ∀ a b c : List Char, lexLe a b = true → lexLe b c = true → lexLe a c = true := by
  intro a
  induction a with
  | nil => intro b c _ _; simp [lexLe]
  | cons x xs ih =>
    intro b c hab hbc
    cases b with
    | nil => simp [lexLe] at hab
    | cons y ys =>
      cases c with
      | nil => simp [lexLe] at hbc
      | cons z zs =>
        by_cases hxy : x = y <;> by_cases hyz : y = z
        · subst hxy; subst hyz
          simp only [lexLe, if_pos rfl] at hab hbc ⊢
          exact ih ys zs hab hbc
        · subst hxy
          simp only [lexLe, if_pos rfl] at hab
          simp only [lexLe, if_neg hyz] at hbc ⊢
          exact hbc
        · subst hyz
          simp only [lexLe, if_neg hxy] at hab ⊢
          exact hab
        · simp only [lexLe, if_neg hxy] at hab
          simp only [lexLe, if_neg hyz] at hbc
          by_cases hxz : x = z
          · subst hxz
            have h1 : x < y := by simpa using hab
            have h2 : y < x := by simpa using hbc
            exact absurd (lt_trans h1 h2) (lt_irrefl x)
          · simp only [lexLe, if_neg hxz]
            have h1 : x < y := by simpa using hab
            have h2 : y < z := by simpa using hbc
            simpa using lt_trans h1 h2

/-- Every returned result is one of the unsorted matches: the blank-query
guard, both sort comparators and the cap at 10 only drop or reorder. -/
theorem mem_of_mem_performSearch (t : Transcription) (k : SortKey) (q : String)
    (r : SearchResult) (hr : r ∈ performSearch t k q) : r ∈ searchMatches t q := by
  unfold performSearch at hr
  split_ifs at hr with hblank
  · simp at hr
  · cases k with
    | relevance =>
      have := List.take_subset 10 _ hr
      exact (mem_stableSort _ _ r).mp this
    | time =>
      have := List.take_subset 10 _ hr
      exact (mem_stableSort _ _ r).mp this

/-! Claim theorems. -/

/-- C1 (counterexample): on the single-segment transcript of the
specification scenario, the query machine learning does return exactly
one result, but its score is 3, not 1: the code adds the full-phrase
bonus of 2 once per matching term, so the relevance is 3 + 3 = 6 and the
normalized score is 6 / 2 = 3. -/
theorem c1_counterexample :
    (performSearch mlTranscript .relevance "machine learning").map SearchResult.score
      = [3] ∧ (3 : ℚ) ≠ 1 := by
  constructor
  · decide
  · decide

/-- C1 (amended): searching the single-segment scenario transcript for
machine learning returns exactly one result whose score equals 3.0 and
whose context equals the full segment text with no truncation and no
ellipsis. -/
theorem c1_amended :
    performSearch mlTranscript .relevance "machine learning" =
      [⟨⟨"00:00:00", "00:00:05", mlText⟩, 3, mlText⟩] := by
  decide

/-- C2 (counterexample): for the segment with text hello world and the
query hello world, the code computes score 3 (bonus of 2 added for each
of the two present terms), while the specified formula (single bonus of
2) yields 2. -/
theorem c2_counterexample :
    (performSearch ⟨"hello world", [⟨"00:00:00", "00:00:05", "hello world"⟩]⟩
        .relevance "hello world").map SearchResult.score = [3] ∧
    specScore "hello world" "hello world" = 2 ∧ (3 : ℚ) ≠ 2 := by
  refine ⟨by decide, by decide, by decide⟩

/-- C2 (amended): for every returned result, the relevance score equals
(the count of query terms present in the segment, each present term
contributing 1, plus a bonus of 2 for every present term when the
lowercased full query is an exact substring of the lowercased segment
text) divided by the number of terms in the query. -/
theorem c2_amended (t : Transcription) (k : SortKey) (q : String)
    (r : SearchResult) (hr : r ∈ performSearch t k q) :
    r.score =
      (((splitSp (lowerL q.toList)).countP
          (fun term => jsIncludes (lowerL r.segment.text.toList) term) : ℚ) +
        (if jsIncludes (lowerL r.segment.text.toList) (lowerL q.toList) = true
         then 2 * ((splitSp (lowerL q.toList)).countP
            (fun term => jsIncludes (lowerL r.segment.text.toList) term) : ℚ)
         else 0)) /
      ((splitSp (lowerL q.toList)).length : ℚ) := by
  obtain ⟨seg, -, -, rfl⟩ :=
    (mem_searchMatches t q r).mp (mem_of_mem_performSearch t k q r hr)
  show mkRat _ _ = _
  rw [Rat.mkRat_eq_div, relevanceScoreOf_eq]
  by_cases hq :
      jsIncludes (lowerL seg.text.toList) (lowerL q.toList) = true <;>
    simp only [hq, if_true, if_false, Bool.false_eq_true] <;> push_cast <;> ring

/-- C2 (witness for the amended theorem): instantiated on a one-segment
transcript with text a and query a. -/
theorem c2_witness :
    ((⟨⟨"0", "1", "a"⟩, 3, "a"⟩ : SearchResult) ∈
        performSearch ⟨"a", [⟨"0", "1", "a"⟩]⟩ .relevance "a") ∧
    (⟨⟨"0", "1", "a"⟩, 3, "a"⟩ : SearchResult).score =
      (((splitSp (lowerL "a".toList)).countP
          (fun term => jsIncludes (lowerL "a".toList) term) : ℚ) +
        (if jsIncludes (lowerL "a".toList) (lowerL "a".toList) = true
         then 2 * ((splitSp (lowerL "a".toList)).countP
            (fun term => jsIncludes (lowerL "a".toList) term) : ℚ)
         else 0)) /
      ((splitSp (lowerL "a".toList)).length : ℚ) :=
  ⟨by decide,
   c2_amended ⟨"a", [⟨"0", "1", "a"⟩]⟩ .relevance "a" ⟨⟨"0", "1", "a"⟩, 3, "a"⟩
     (by decide)⟩

/-- C3 (counterexample): the returned score can exceed 1: for the segment
alpha beta and the query alpha beta the single returned score is 3. -/
theorem c3_counterexample :
    (performSearch ⟨"alpha beta", [⟨"00:00:00", "00:00:05", "alpha beta"⟩]⟩
        .relevance "alpha beta").map SearchResult.score = [3] ∧
    ¬ ((3 : ℚ) ≤ 1) := by
  refine ⟨by decide, by decide⟩

/-- C3 (amended): every returned SearchResult has a score strictly
greater than 0 (zero-relevance segments are excluded) and at most 3 (each
query term contributes at most 1 + 2 to the relevance before the division
by the term count). -/
theorem c3_amended (t : Transcription) (k : SortKey) (q : String)
    (r : SearchResult) (hr : r ∈ performSearch t k q) :
    0 < r.score ∧ r.score ≤ 3 := by
  obtain ⟨seg, -, hpos, rfl⟩ :=
    (mem_searchMatches t q r).mp (mem_of_mem_performSearch t k q r hr)
  have hlen := splitSp_length_pos (lowerL q.toList)
  have hbound := relevanceScoreOf_le (splitSp (lowerL q.toList)) (lowerL q.toList)
    (lowerL seg.text.toList)
  show 0 < mkRat _ _ ∧ mkRat _ _ ≤ 3
  rw [Rat.mkRat_eq_div]
  constructor
  · apply div_pos
    · exact_mod_cast hpos
    · exact_mod_cast hlen
  · rw [div_le_iff₀ (by exact_mod_cast hlen)]
    exact_mod_cast hbound

/-- C3 (witness for the amended theorem): instantiated on a one-segment
transcript with text b and query b, whose single result scores 3. -/
theorem c3_witness :
    ((⟨⟨"0", "1", "b"⟩, 3, "b"⟩ : SearchResult) ∈
        performSearch ⟨"b", [⟨"0", "1", "b"⟩]⟩ .relevance "b") ∧
    (0 < (⟨⟨"0", "1", "b"⟩, 3, "b"⟩ : SearchResult).score ∧
      (⟨⟨"0", "1", "b"⟩, 3, "b"⟩ : SearchResult).score ≤ 3) :=
  ⟨by decide,
   c3_amended ⟨"b", [⟨"0", "1", "b"⟩]⟩ .relevance "b" ⟨⟨"0", "1", "b"⟩, 3, "b"⟩
     (by decide)⟩

/-- C6 (confirmed): searching with an empty or whitespace-only query
returns the empty result sequence (the embedding is a total function, so
no error is possible). -/
theorem c6_blank_query (t : Transcription) (k : SortKey) (q : String)
    (hq : q.toList.all Char.isWhitespace = true) :
    performSearch t k q = [] := by
  unfold performSearch
  rw [if_pos]
  unfold jsTrim
  rw [List.dropWhile_eq_nil_iff.mpr (fun x hx => (List.all_eq_true.mp hq) x hx)]
  rfl

/-- C6 (witness): a whitespace-only query on the scenario transcript. -/
theorem c6_witness :
    ("  ".toList.all Char.isWhitespace = true) ∧
    performSearch mlTranscript .relevance "  " = [] :=
  ⟨by decide, c6_blank_query mlTranscript .relevance "  " (by decide)⟩

/-- C9 (confirmed, spec-modelled): building the index over a transcript
with zero segments fails with EmptyTranscriptError, and the pipeline
returns that error without producing any downstream output, for every
possible downstream computation. -/
theorem c9_empty_transcript {α : Type} (downstream : Index → Transcription → α)
    (t : Transcription) (h : t.segments = []) :
    buildIndex t = .error .emptyTranscriptError ∧
    runPipeline downstream t = .error .emptyTranscriptError := by
  have hb : buildIndex t = .error .emptyTranscriptError := by
    unfold buildIndex
    rw [h]
    rfl
  refine ⟨hb, ?_⟩
  unfold runPipeline
  rw [hb]

/-- C9 (witness): the empty transcript, with the embedded search engine
standing in as the downstream component. -/
theorem c9_witness :
    (⟨"", []⟩ : Transcription).segments = [] ∧
    (buildIndex ⟨"", []⟩ = .error .emptyTranscriptError ∧
     runPipeline (fun _ tr => performSearch tr .relevance "x") ⟨"", []⟩ =
       .error .emptyTranscriptError) :=
  ⟨rfl, c9_empty_transcript (fun _ tr => performSearch tr .relevance "x") ⟨"", []⟩ rfl⟩

/-- C10 (confirmed): every edge the concept-map renderer draws lies in
the edge set and has both endpoint ids resolving to nodes of the node
set; contrapositively, an edge with an unresolvable endpoint is silently
skipped, for every concept map and every layout trigonometry. -/
theorem c10_drawn_edges_resolve (cosF sinF : Nat → Nat → ℚ) (cm : ConceptMap)
    (e : ConceptEdge)
    (he : e ∈ drawnEdges cm (calculateLayout cosF sinF cm.nodes)) :
    e ∈ cm.edges ∧ (∃ n ∈ cm.nodes, n.id = e.fromId) ∧
      (∃ n ∈ cm.nodes, n.id = e.toId) := by
  unfold drawnEdges at he
  rw [List.mem_filter] at he
  obtain ⟨hmem, hcond⟩ := he
  simp only [Bool.and_eq_true] at hcond
  obtain ⟨⟨⟨hf, ht⟩, -⟩, -⟩ := hcond
  refine ⟨hmem, ?_, ?_⟩
  · obtain ⟨n, hn, hp⟩ := List.find?_isSome.mp hf
    exact ⟨n, hn, by simpa using hp⟩
  · obtain ⟨n, hn, hp⟩ := List.find?_isSome.mp ht
    exact ⟨n, hn, by simpa using hp⟩

/-- C10 (witness): a two-node map whose first edge is drawn; the theorem
instantiated at it recovers both endpoints, while its second edge (with a
dangling endpoint id) is skipped. -/
theorem c10_witness :
    ((⟨"a", "b", "rel", 1⟩ : ConceptEdge) ∈
        drawnEdges
          ⟨[⟨"a", "A", "root", 1⟩, ⟨"b", "B", "concept", 1⟩],
           [⟨"a", "b", "rel", 1⟩, ⟨"a", "zz", "bad", 1⟩]⟩
          (calculateLayout (fun _ _ => 0) (fun _ _ => 0)
            (⟨[⟨"a", "A", "root", 1⟩, ⟨"b", "B", "concept", 1⟩],
              [⟨"a", "b", "rel", 1⟩, ⟨"a", "zz", "bad", 1⟩]⟩ : ConceptMap).nodes)) ∧
    ((⟨"a", "b", "rel", 1⟩ : ConceptEdge) ∈
        (⟨[⟨"a", "A", "root", 1⟩, ⟨"b", "B", "concept", 1⟩],
          [⟨"a", "b", "rel", 1⟩, ⟨"a", "zz", "bad", 1⟩]⟩ : ConceptMap).edges ∧
      (∃ n ∈ (⟨[⟨"a", "A", "root", 1⟩, ⟨"b", "B", "concept", 1⟩],
          [⟨"a", "b", "rel", 1⟩, ⟨"a", "zz", "bad", 1⟩]⟩ : ConceptMap).nodes,
        n.id = (⟨"a", "b", "rel", 1⟩ : ConceptEdge).fromId) ∧
      (∃ n ∈ (⟨[⟨"a", "A", "root", 1⟩, ⟨"b", "B", "concept", 1⟩],
          [⟨"a", "b", "rel", 1⟩, ⟨"a", "zz", "bad", 1⟩]⟩ : ConceptMap).nodes,
        n.id = (⟨"a", "b", "rel", 1⟩ : ConceptEdge).toId)) :=
  ⟨by decide,
   c10_drawn_edges_resolve (fun _ _ => 0) (fun _ _ => 0)
     ⟨[⟨"a", "A", "root", 1⟩, ⟨"b", "B", "concept", 1⟩],
      [⟨"a", "b", "rel", 1⟩, ⟨"a", "zz", "bad", 1⟩]⟩
     ⟨"a", "b", "rel", 1⟩ (by decide)⟩

/-- C7 (amended): when the lowercased query first occurs at position i of
the lowercased segment text, the context is the window from 50 characters
before i to 50 characters after the end of the match, with a leading
ellipsis exactly when the window starts after the beginning and a
trailing ellipsis exactly when it ends before the end of the text; when
the query does not occur case-insensitively, the context is the first 100
characters of the segment FOLLOWED BY AN ELLIPSIS (the code appends the
ellipsis unconditionally in the fallback branch, which is what the claim
misses). -/
theorem c7_context_window (text query : String) :
    (∀ i, OccAt (lowerL query.toList) (lowerL text.toList) i →
       (∀ j < i, ¬ OccAt (lowerL query.toList) (lowerL text.toList) j) →
       getContext text query =
         (if 50 < i then "..." else "") ++
           String.mk (jsSubstring text.toList (i - 50)
             (min text.toList.length (i + query.toList.length + 50))) ++
           (if min text.toList.length (i + query.toList.length + 50) <
               text.toList.length then "..." else "")) ∧
    ((∀ j, ¬ OccAt (lowerL query.toList) (lowerL text.toList) j) →
      getContext text query = String.mk (text.toList.take 100) ++ "...") := by
  constructor
  · intro i hocc hmin
    have hidx : jsIndexOf (lowerL query.toList) (lowerL text.toList) = some i :=
      (jsIndexOf_eq_some_iff _ _ i).mpr ⟨hocc, hmin⟩
    unfold getContext
    rw [hidx]
    have h50 : (0 < i - 50) ↔ (50 < i) := by omega
    simp only [h50]
  · intro hall
    have hidx : jsIndexOf (lowerL query.toList) (lowerL text.toList) = none :=
      (jsIndexOf_eq_none_iff _ _).mpr hall
    unfold getContext
    rw [hidx]
    simp [jsSubstring]

/-- C7 (counterexample): with text hello and query xyz the query is not a
substring, and the fallback context is hello followed by an ellipsis, not
the first 100 characters hello alone as the claim states. -/
theorem c7_counterexample :
    getContext "hello" "xyz" = "hello..." ∧ "hello..." ≠ "hello" :=
  ⟨by decide, by decide⟩

/-- C7 (witness for the amended theorem): the query LEARNING occurs
case-insensitively at position 12 of the text, the window reaches both
text boundaries, and the context is the whole text with no ellipsis. -/
theorem c7_witness :
    OccAt (lowerL "LEARNING".toList)
        (lowerL "the machine learning lecture".toList) 12 ∧
    (∀ j < 12, ¬ OccAt (lowerL "LEARNING".toList)
        (lowerL "the machine learning lecture".toList) j) ∧
    getContext "the machine learning lecture" "LEARNING" =
      (if 50 < 12 then "..." else "") ++
        String.mk (jsSubstring "the machine learning lecture".toList (12 - 50)
          (min "the machine learning lecture".toList.length
            (12 + "LEARNING".toList.length + 50))) ++
        (if min "the machine learning lecture".toList.length
            (12 + "LEARNING".toList.length + 50) <
            "the machine learning lecture".toList.length then "..." else "") :=
  ⟨by decide, by decide,
   (c7_context_window "the machine learning lecture" "LEARNING").1 12
     (by decide) (by decide)⟩

/-- C8 (confirmed): starting from any history state satisfying the log
invariant (at most 5 entries, no duplicates), the history after a search
still has at most 5 entries and no duplicates, a query not already
present becomes the newest (head) entry, and the result component of the
search is the same whatever history it runs against. -/
theorem c8_history (h : List String) (q : String) (t : Transcription) (k : SortKey)
    (h₁ h₂ : List String) (hlen : h.length ≤ 5) (hnd : h.Nodup) :
    (updateHistory h q).length ≤ 5 ∧ (updateHistory h q).Nodup ∧
    (q ∉ h → (updateHistory h q).head? = some q) ∧
    (performSearchWithHistory t k q h₁).1 = (performSearchWithHistory t k q h₂).1 := by
  unfold updateHistory
  by_cases hq : q ∈ h
  · rw [if_pos hq]
    exact ⟨hlen, hnd, fun hc => absurd hq hc, rfl⟩
  · rw [if_neg hq]
    refine ⟨?_, ?_, fun _ => rfl, rfl⟩
    · have := List.length_take 4 h
      simp only [List.length_cons]
      omega
    · refine List.nodup_cons.mpr ⟨?_, (List.take_sublist 4 h).nodup hnd⟩
      intro hc
      exact hq (List.take_subset 4 h hc)

/-- C8 (witness): a one-entry history and a fresh query on the scenario
transcript, run against two different observed histories. -/
theorem c8_witness :
    (["a"].length ≤ 5) ∧ (["a"] : List String).Nodup ∧
    ((updateHistory ["a"] "b").length ≤ 5 ∧ (updateHistory ["a"] "b").Nodup ∧
     ("b" ∉ ["a"] → (updateHistory ["a"] "b").head? = some "b") ∧
     (performSearchWithHistory mlTranscript .relevance "b" ["x"]).1 =
       (performSearchWithHistory mlTranscript .relevance "b" ["y"]).1) :=
  ⟨by decide, by decide,
   c8_history ["a"] "b" mlTranscript .relevance ["x"] ["y"] (by decide) (by decide)⟩

/-- C4 (confirmed): for a transcript whose segments are chronologically
ordered (strictly ascending start timecodes, the Transcript invariant of
the data model), relevance-mode search returns at most 10 results,
ordered by descending score with ties broken by ascending segment start
time — the tie order follows from the stability of the sort. -/
theorem c4_relevance_order (t : Transcription) (q : String)
    (hchron : t.segments.Pairwise (fun s₁ s₂ => strLt s₁.start s₂.start = true)) :
    (performSearch t .relevance q).length ≤ 10 ∧
    (performSearch t .relevance q).Pairwise
      (fun a b => b.score < a.score ∨
        (a.score = b.score ∧ strLt a.segment.start b.segment.start = true)) := by
  unfold performSearch
  split_ifs with hblank
  · simp
  · show (List.take 10 (stableSort (fun a b : SearchResult => decide (b.score ≤ a.score))
        (searchMatches t q))).length ≤ 10 ∧ _
    constructor
    · rw [List.length_take]
      omega
    · have hbase := searchMatches_pairwise t q _ hchron
      have hsorted := stableSort_pairwise_key (fun r : SearchResult => r.score)
        (fun a b => strLt a.segment.start b.segment.start = true)
        (searchMatches t q) hbase
      exact List.Pairwise.sublist (List.take_sublist 10 _) hsorted

/-- C4 (witness): a two-segment chronological transcript where both
segments tie at score 3 for the query x. -/
theorem c4_witness :
    ((⟨"x y x", [⟨"00:00:00", "00:00:02", "x y"⟩, ⟨"00:00:05", "00:00:07", "x"⟩]⟩ :
        Transcription).segments.Pairwise
      (fun s₁ s₂ => strLt s₁.start s₂.start = true)) ∧
    ((performSearch
        ⟨"x y x", [⟨"00:00:00", "00:00:02", "x y"⟩, ⟨"00:00:05", "00:00:07", "x"⟩]⟩
        .relevance "x").length ≤ 10 ∧
     (performSearch
        ⟨"x y x", [⟨"00:00:00", "00:00:02", "x y"⟩, ⟨"00:00:05", "00:00:07", "x"⟩]⟩
        .relevance "x").Pairwise
      (fun a b => b.score < a.score ∨
        (a.score = b.score ∧ strLt a.segment.start b.segment.start = true))) :=
  ⟨by decide,
   c4_relevance_order
     ⟨"x y x", [⟨"00:00:00", "00:00:02", "x y"⟩, ⟨"00:00:05", "00:00:07", "x"⟩]⟩
     "x" (by decide)⟩

/-- C5 (counterexample): on the eleven-segment transcript the two sort
modes do not return the same result set: relevance mode keeps the
score-3 phrase segment and drops one low-score segment, while time mode
truncates to the ten chronologically first segments and drops the
phrase segment, so the two result lists are not even permutations of
each other. -/
theorem c5_counterexample :
    ¬ List.Perm (performSearch elevenTranscript .time "x y")
        (performSearch elevenTranscript .relevance "x y") := by
  decide

/-- C5 (amended): whenever at most 10 segments match, the by-time result
sequence is a permutation of the relevance-mode result sequence (same
segments with the same scores) reordered by ascending segment start;
when more than 10 segments match the two modes may keep different
segments because the cap at 10 is applied after sorting. -/
theorem c5_time_mode (t : Transcription) (q : String)
    (hle : (searchMatches t q).length ≤ 10) :
    List.Perm (performSearch t .time q) (performSearch t .relevance q) ∧
    (performSearch t .time q).Pairwise
      (fun a b => strLe a.segment.start b.segment.start = true) := by
  unfold performSearch
  split_ifs with hblank
  · exact ⟨List.Perm.refl _, List.Pairwise.nil⟩
  · show List.Perm
        (List.take 10 (stableSort
          (fun a b : SearchResult => strLe a.segment.start b.segment.start)
          (searchMatches t q)))
        (List.take 10 (stableSort
          (fun a b : SearchResult => decide (b.score ≤ a.score))
          (searchMatches t q))) ∧ _
    have hlt : (stableSort
        (fun a b : SearchResult => strLe a.segment.start b.segment.start)
        (searchMatches t q)).length ≤ 10 := by
      rw [length_stableSort]; exact hle
    have hlr : (stableSort
        (fun a b : SearchResult => decide (b.score ≤ a.score))
        (searchMatches t q)).length ≤ 10 := by
      rw [length_stableSort]; exact hle
    rw [List.take_of_length_le hlt, List.take_of_length_le hlr]
    constructor
    · exact (stableSort_perm _ _).trans (stableSort_perm _ _).symm
    · exact stableSort_sorted _
        (fun a b => lexLe_total a.segment.start.toList b.segment.start.toList)
        (fun a b c hab hbc =>
          lexLe_trans a.segment.start.toList b.segment.start.toList
            c.segment.start.toList hab hbc)
        (searchMatches t q)

/-- C5 (witness for the amended theorem): a two-segment transcript where
both segments match the query q. -/
theorem c5_witness :
    ((searchMatches ⟨"p q q", [⟨"00:00:00", "00:00:01", "p q"⟩,
        ⟨"00:00:01", "00:00:02", "q"⟩]⟩ "q").length ≤ 10) ∧
    (List.Perm
      (performSearch ⟨"p q q", [⟨"00:00:00", "00:00:01", "p q"⟩,
        ⟨"00:00:01", "00:00:02", "q"⟩]⟩ .time "q")
      (performSearch ⟨"p q q", [⟨"00:00:00", "00:00:01", "p q"⟩,
        ⟨"00:00:01", "00:00:02", "q"⟩]⟩ .relevance "q") ∧
     (performSearch ⟨"p q q", [⟨"00:00:00", "00:00:01", "p q"⟩,
        ⟨"00:00:01", "00:00:02", "q"⟩]⟩ .time "q").Pairwise
      (fun a b => strLe a.segment.start b.segment.start = true)) :=
  ⟨by decide,
   c5_time_mode ⟨"p q q", [⟨"00:00:00", "00:00:01", "p q"⟩,
     ⟨"00:00:01", "00:00:02", "q"⟩]⟩ "q" (by decide)⟩

end EnhancedMemory
